import Mathlib

/-!
Shallow embedding of `src/gallery_dl/downloader/segmented.py` (segmented
downloader: `Segment`, `DownloadManager` and its claim / split / cleanup /
assembly operations), with theorems settling the specification claims.

Byte offsets are modelled as `Int` (Python integers are signed and
unbounded; e.g. `_create_initial_segments` can compute `end = -1` when
`file_size < num_threads`).  Python's floor division `//` is modelled by
`Int.fdiv`.  The mutable segment table `self.segments` is threaded through
each operation explicitly as a `List Segment`; a Python object reference
into the table is modelled as the index of the segment in the list.
-/

namespace SegDL

/-- Model of the `SegmentStatus` enum (lines 41-45). -/
inductive SegmentStatus where
  | pending
  | downloading
  | completed
  | failed
deriving DecidableEq

/-- Model of the `Segment` object (lines 47-54): `start`, `end`, the derived
`size`, and `status`.  The per-segment lock carries no data and is not part
of the value. -/
structure Segment where
  start : Int
  «end» : Int
  size : Int
  status : SegmentStatus
deriving DecidableEq

/-- Model of `Segment.__init__` (lines 49-54): `size` is computed as
`end - start + 1`.  The Python `status` parameter defaults to `PENDING`;
call sites that omit it pass `SegmentStatus.pending` here explicitly. -/
def Segment.make (start «end» : Int) (status : SegmentStatus) : Segment :=
  { start := start, «end» := «end», size := «end» - start + 1, status := status }

/-- Index of the first segment whose status is `PENDING`, scanning the table
in order, as the loop of `_get_next_segment` (lines 185-191) does. -/
def getNextSegmentIdx : List Segment → Option Nat
  | [] => none
  | s :: rest =>
      if s.status = SegmentStatus.pending then some 0
      else (getNextSegmentIdx rest).map Nat.succ

/-- Model of `DownloadManager._get_next_segment` (lines 185-191): under the
outer lock, scan `self.segments` in table order and return the first segment
whose status is `PENDING` (identified by its index), or `None`.  The method
performs no assignment, so the table component of the result is the input
table unchanged. -/
def getNextSegment (segs : List Segment) : Option Nat × List Segment :=
  (getNextSegmentIdx segs, segs)

/-- Model of the `segment.status = SegmentStatus.DOWNLOADING` /
`... = COMPLETED` / `... = FAILED` writes performed under `segment.lock`
(lines 156-157, 160-161, 182-183), acting on the table entry the worker's
object reference (index) points at. -/
def setSegmentStatus (segs : List Segment) (i : Nat) (st : SegmentStatus) : List Segment :=
  match segs.get? i with
  | some s => segs.set i { s with status := st }
  | none => segs

/-- One step of the selection loop of `_split_largest_segment` (lines
196-199): keep the current candidate unless this segment is `DOWNLOADING`
and either no candidate exists yet or this segment's `size` is strictly
larger (ties keep the first-encountered candidate). -/
def pickLarger (acc : Option (Nat × Segment)) (p : Nat × Segment) : Option (Nat × Segment) :=
  if p.2.status = SegmentStatus.downloading then
    match acc with
    | none => some p
    | some q => if q.2.size < p.2.size then some p else acc
  else acc

/-- The selection loop of `_split_largest_segment` over the tail of the
table, with `i` the index of the head of that tail in the full table. -/
def findLargestFrom : List Segment → Nat → Option (Nat × Segment) → Option (Nat × Segment)
  | [], _, acc => acc
  | s :: rest, i, acc => findLargestFrom rest (i + 1) (pickLarger acc (i, s))

/-- Result of the scan for `largest_segment` in `_split_largest_segment`
(lines 194-199): the first `DOWNLOADING` segment of maximal `size`,
together with its index, or `none`. -/
def findLargestDownloading (segs : List Segment) : Option (Nat × Segment) :=
  findLargestFrom segs 0 none

/-- The fixed minimum-split policy constant `1024 * 1024` of line 201. -/
def splitThreshold : Int := 1024 * 1024

/-- Model of `DownloadManager._split_largest_segment` (lines 193-211): scan
for the largest `DOWNLOADING` segment; if one exists and its `size` exceeds
`1024 * 1024`, shrink its `end` to `start + size // 2`, recompute its
`size`, append a new `Segment(split_point + 1, old_end)` (constructed with
the default status `PENDING`) to the table, and return that new segment;
otherwise return `None` with the table untouched. -/
def splitLargestSegment (segs : List Segment) : List Segment × Option Segment :=
  match findLargestDownloading segs with
  | none => (segs, none)
  | some (i, l) =>
      if splitThreshold < l.size then
        let splitPoint := l.start + Int.fdiv l.size 2
        let shrunk : Segment :=
          { l with «end» := splitPoint, size := splitPoint - l.start + 1 }
        let newSegment := Segment.make (splitPoint + 1) l.«end» SegmentStatus.pending
        (segs.set i shrunk ++ [newSegment], some newSegment)
      else (segs, none)

/-- Model of `DownloadManager._create_initial_segments` (lines 133-140):
`segment_size = file_size // num_threads`; segment `i` starts at
`i * segment_size` and ends at `start + segment_size - 1`, except that the
last segment's `end` is forced to `file_size - 1`.  All initial segments
carry the default status `PENDING`. -/
def createInitialSegments (fileSize : Int) (numThreads : Nat) : List Segment :=
  let segmentSize := Int.fdiv fileSize (numThreads : Int)
  (List.range numThreads).map (fun (i : Nat) =>
    let start := (i : Int) * segmentSize
    let e := if i = numThreads - 1 then fileSize - 1 else start + segmentSize - 1
    Segment.make start e SegmentStatus.pending)

/-- Predicate: byte offset `k` lies in the segment's inclusive range. -/
def covers (s : Segment) (k : Int) : Prop :=
  s.start ≤ k ∧ k ≤ s.«end»

instance (s : Segment) (k : Int) : Decidable (covers s k) := by
  unfold covers; infer_instance

/-- Predicate: the segment's status is not `FAILED`. -/
def nonFailed (s : Segment) : Prop :=
  s.status ≠ SegmentStatus.failed

instance (s : Segment) : Decidable (nonFailed s) := by
  unfold nonFailed; infer_instance

/-- The table's non-`FAILED` segments exactly partition `[0, fileSize - 1]`:
every in-range offset is covered by some non-failed segment, two distinct
(by index) non-failed segments never cover a common offset, and non-failed
segments only cover in-range offsets. -/
def exactPartition (segs : List Segment) (fileSize : Int) : Prop :=
  (∀ k : Int, 0 ≤ k → k < fileSize →
      ∃ i, ∃ hi : i < segs.length, nonFailed segs[i] ∧ covers segs[i] k) ∧
  (∀ i j (hi : i < segs.length) (hj : j < segs.length), i ≠ j →
      ∀ k : Int, nonFailed segs[i] → nonFailed segs[j] →
        covers segs[i] k → covers segs[j] k → False) ∧
  (∀ i, ∀ hi : i < segs.length, nonFailed segs[i] →
      ∀ k : Int, covers segs[i] k → 0 ≤ k ∧ k < fileSize)

/-- Every segment's `size` field agrees with its range, as `Segment.__init__`
establishes and `_split_largest_segment` re-establishes. -/
def sizeInv (segs : List Segment) : Prop :=
  ∀ s ∈ segs, s.size = s.«end» - s.start + 1

/-- Iterating `_split_largest_segment` on the table `n` times (the table
state after any sequence of `n` split attempts, ignoring the returned
segments). -/
def iterateSplits : Nat → List Segment → List Segment
  | 0, segs => segs
  | n + 1, segs => iterateSplits n (splitLargestSegment segs).1

/-- The comparison key of `sorted(self.segments, key=lambda s: s.start)`
on line 221. -/
def startLE (a b : Segment) : Prop :=
  a.start ≤ b.start

instance : DecidableRel startLE := by
  unfold startLE; infer_instance

instance : IsTotal Segment startLE :=
  ⟨fun a b => le_total a.start b.start⟩

instance : IsTrans Segment startLE :=
  ⟨fun _ _ _ hab hbc => le_trans hab hbc⟩

/-- Strict version of the sort key, used to state that a table whose
segments have pairwise-distinct `start` offsets has a unique sorted
order. -/
def startLT (a b : Segment) : Prop :=
  a.start < b.start

instance : IsAntisymm Segment startLT :=
  ⟨fun _ _ hab hba => absurd (lt_trans hab hba) (lt_irrefl _)⟩

/-- Model of `sorted(self.segments, key=lambda s: s.start)` (line 221):
a stable sort of the table by ascending `start`. -/
def sortByStart (segs : List Segment) : List Segment :=
  List.insertionSort startLE segs

/-- Model of `DownloadManager._assemble_file` (lines 213-231), producing the
byte content written to the final file.  The part files on disk are modelled
as a map `parts` from a segment `start` offset (which determines the part
file name `<temppath>.part<start>`) to the byte list it holds, or `none`
when no such file exists.  The loop visits the segments sorted by ascending
`start`; an existing part file's data is appended to the output, a missing
one (`FileNotFoundError`) is logged as a warning and skipped.  Segment
status is never consulted. -/
def assembleFile (segs : List Segment) (parts : Int → Option (List Nat)) : List Nat :=
  (sortByStart segs).foldl
    (fun out s =>
      match parts s.start with
      | some data => out ++ data
      | none => out) []

/-- Model of `DownloadManager._cleanup_partial_files` (lines 118-126): for
every segment whose status is `COMPLETED`, remove its part file; all other
files are left untouched. -/
def cleanupPartFiles (segs : List Segment) (parts : Int → Option (List Nat)) :
    Int → Option (List Nat) :=
  segs.foldl
    (fun fs seg =>
      if seg.status = SegmentStatus.completed then
        fun p => if p = seg.start then none else fs p
      else fs)
    parts

/-- Outcome of `download()` after the worker threads have been joined
(lines 105-113): the boolean return value, the content of the final output
file (`none` when no final file is produced), and the remaining part
files. -/
structure AfterJoinResult where
  success : Bool
  finalFile : Option (List Nat)
  parts : Int → Option (List Nat)

/-- Model of lines 105-113 of `download()`: if the shutdown event is set
after the join, clean up the completed segments' part files and return
`False` without assembling; otherwise assemble the final file (which also
deletes every part file that was read) and return `True`. -/
def downloadAfterJoin (shutdownSet : Bool) (segs : List Segment)
    (parts : Int → Option (List Nat)) : AfterJoinResult :=
  if shutdownSet then
    { success := false, finalFile := none, parts := cleanupPartFiles segs parts }
  else
    { success := true,
      finalFile := some (assembleFile segs parts),
      parts := fun p => if segs.any (fun s => s.start == p) then none else parts p }

/-- Observable outcome of one `DownloadManager.download()` call: the boolean
result, how many HTTP HEAD size probes were issued, how many worker threads
were started, the final segment table, the final-file content (if any), and
the part files left on disk. -/
structure DownloadRun where
  success : Bool
  headRequests : Nat
  threadsStarted : Nat
  segments : List Segment
  finalFile : Option (List Nat)
  parts : Int → Option (List Nat)

/-- Model of `DownloadManager.download()` (lines 77-113).  Line 79: if the
global shutdown event is already set on entry, return `False` immediately —
before the HEAD size probe, before `_create_initial_segments`, and before
any thread is started or file touched.  Otherwise: probe the size (one HEAD
request), seed the table, run the worker phase, and finish as in
`downloadAfterJoin`.  The concurrent worker phase (lines 97-103) is
abstracted as a parameter `workerPhase` mapping the initial table to the
table after all threads joined, the part files written, and whether the
shutdown event is set at the line-105 check. -/
def download (shutdownAtEntry : Bool) (fileSize : Int) (numThreads : Nat)
    (parts0 : Int → Option (List Nat))
    (workerPhase : List Segment → List Segment × (Int → Option (List Nat)) × Bool) :
    DownloadRun :=
  if shutdownAtEntry then
    { success := false, headRequests := 0, threadsStarted := 0,
      segments := [], finalFile := none, parts := parts0 }
  else
    let w := workerPhase (createInitialSegments fileSize numThreads)
    let r := downloadAfterJoin w.2.2 w.1 w.2.1
    { success := r.success, headRequests := 1, threadsStarted := numThreads,
      segments := w.1, finalFile := r.finalFile, parts := r.parts }

/-! ## Helper lemmas about the claim scan -/

theorem getNextSegmentIdx_eq_none_iff (segs : List Segment) :
    getNextSegmentIdx segs = none ↔ ∀ s ∈ segs, s.status ≠ SegmentStatus.pending := by
  induction segs with
  | nil => simp [getNextSegmentIdx]
  | cons s rest ih =>
      by_cases h : s.status = SegmentStatus.pending
      · simp [getNextSegmentIdx, h]
      · simp [getNextSegmentIdx, h, ih]

theorem getNextSegmentIdx_some (segs : List Segment) (i : Nat)
    (h : getNextSegmentIdx segs = some i) :
    ∃ hi : i < segs.length, segs[i].status = SegmentStatus.pending ∧
      ∀ j (hj : j < segs.length), j < i → segs[j].status ≠ SegmentStatus.pending := by
  induction segs generalizing i with
  | nil => simp [getNextSegmentIdx] at h
  | cons s rest ih =>
      by_cases hp : s.status = SegmentStatus.pending
      · simp only [getNextSegmentIdx, if_pos hp, Option.some.injEq] at h
        subst h
        exact ⟨by simp, by simpa using hp, by omega⟩
      · simp only [getNextSegmentIdx, if_neg hp, Option.map_eq_some'] at h
        obtain ⟨k, hk, rfl⟩ := h
        obtain ⟨hklt, hkp, hjlt⟩ := ih k hk
        refine ⟨by simpa using Nat.succ_lt_succ hklt, by simpa using hkp, ?_⟩
        intro j hj hji
        cases j with
        | zero => simpa using hp
        | succ j' =>
            have hj' : j' < rest.length := by simpa using hj
            have := hjlt j' hj' (by omega)
            simpa using this

/-! ## Helper lemmas about the split-candidate scan -/

theorem findLargestFrom_valid (segs : List Segment) :
    ∀ (rest : List Segment) (b : Nat) (acc : Option (Nat × Segment)),
      (∀ k (hk : k < rest.length), segs[b + k]? = some rest[k]) →
      (∀ q, acc = some q → segs[q.1]? = some q.2 ∧ q.2.status = SegmentStatus.downloading) →
      ∀ p, findLargestFrom rest b acc = some p →
        segs[p.1]? = some p.2 ∧ p.2.status = SegmentStatus.downloading := by
  intro rest
  induction rest with
  | nil =>
      intro b acc _ hacc p hp
      exact hacc p hp
  | cons s rest ih =>
      intro b acc hidx hacc p hp
      have h0 : segs[b]? = some s := by simpa using hidx 0 (by simp)
      refine ih (b + 1) (pickLarger acc (b, s)) ?_ ?_ p hp
      · intro k hk
        have := hidx (k + 1) (by simpa using Nat.succ_lt_succ hk)
        have harith : b + (k + 1) = b + 1 + k := by omega
        rw [harith] at this
        simpa using this
      · intro q hq
        by_cases hs : s.status = SegmentStatus.downloading
        · cases acc with
          | none =>
              simp only [pickLarger, if_pos hs, Option.some.injEq] at hq
              subst hq
              exact ⟨h0, hs⟩
          | some q0 =>
              by_cases hlt : q0.2.size < s.size
              · simp only [pickLarger, if_pos hs, if_pos hlt, Option.some.injEq] at hq
                subst hq
                exact ⟨h0, hs⟩
              · simp only [pickLarger, if_pos hs, if_neg hlt] at hq
                exact hacc _ hq
        · simp only [pickLarger, if_neg hs] at hq
          exact hacc _ hq

theorem findLargestDownloading_valid (segs : List Segment) (p : Nat × Segment)
    (h : findLargestDownloading segs = some p) :
    segs[p.1]? = some p.2 ∧ p.2.status = SegmentStatus.downloading := by
  refine findLargestFrom_valid segs segs 0 none ?_ (by simp) p h
  intro k hk
  simp [List.getElem?_eq_getElem hk]

/-- Case analysis of `_split_largest_segment`: either nothing happens and the
call returns `None` with the table unchanged, or a `DOWNLOADING` segment `l`
at index `i` with `size` above the threshold is shrunk in place and the new
tail segment is appended and returned. -/
theorem splitLargestSegment_cases (segs : List Segment) :
    splitLargestSegment segs = (segs, none) ∨
    ∃ i l, segs[i]? = some l ∧ l.status = SegmentStatus.downloading ∧
      splitThreshold < l.size ∧
      splitLargestSegment segs =
        (segs.set i { l with «end» := l.start + Int.fdiv l.size 2,
                             size := l.start + Int.fdiv l.size 2 - l.start + 1 }
            ++ [Segment.make (l.start + Int.fdiv l.size 2 + 1) l.«end» SegmentStatus.pending],
          some (Segment.make (l.start + Int.fdiv l.size 2 + 1) l.«end» SegmentStatus.pending)) := by
  cases hf : findLargestDownloading segs with
  | none =>
      left
      simp [splitLargestSegment, hf]
  | some p =>
      obtain ⟨hget, hdl⟩ := findLargestDownloading_valid segs p hf
      by_cases ht : splitThreshold < p.2.size
      · right
        exact ⟨p.1, p.2, hget, hdl, ht, by simp [splitLargestSegment, hf, if_pos ht]⟩
      · left
        simp [splitLargestSegment, hf, if_neg ht]

/-! ## Claims C1, C2, C3, C9 -/

/-- C2, counterexample.  The claim states that `_get_next_segment`
transitions the returned segment to `DOWNLOADING` before returning; in the
code the method performs no status write, so on the table
`[Segment(0, 99)]` the returned segment is still `PENDING` afterwards. -/
theorem getNextSegment_does_not_mark_downloading :
    ¬ ∀ (segs : List Segment) (i : Nat),
        (getNextSegment segs).1 = some i →
        ∀ hi : i < (getNextSegment segs).2.length,
          ((getNextSegment segs).2)[i].status = SegmentStatus.downloading := by
  intro h
  have h2 := h [Segment.make 0 99 SegmentStatus.pending] 0 (by decide) (by decide)
  exact absurd h2 (by decide)

/-- C2, amended.  `_get_next_segment` takes the outer lock, scans the table
in order, and returns the first segment whose status is `PENDING` without
modifying any segment; it returns `None` if and only if no `PENDING`
segment exists, and it never changes the table in any case. -/
theorem getNextSegment_first_pending_no_mutation (segs : List Segment) :
    (getNextSegment segs).2 = segs ∧
    ((getNextSegment segs).1 = none ↔ ∀ s ∈ segs, s.status ≠ SegmentStatus.pending) ∧
    (∀ i, (getNextSegment segs).1 = some i →
      ∃ hi : i < segs.length, segs[i].status = SegmentStatus.pending ∧
        ∀ j (hj : j < segs.length), j < i → segs[j].status ≠ SegmentStatus.pending) := by
  refine ⟨rfl, ?_, ?_⟩
  · simpa [getNextSegment] using getNextSegmentIdx_eq_none_iff segs
  · intro i hi
    exact getNextSegmentIdx_some segs i hi

/-- Witness for the amended C2 theorem at a concrete two-segment table. -/
theorem getNextSegment_first_pending_no_mutation_witness :
    (getNextSegment
        [Segment.make 0 99 SegmentStatus.downloading,
         Segment.make 100 199 SegmentStatus.pending]).2 =
      [Segment.make 0 99 SegmentStatus.downloading,
       Segment.make 100 199 SegmentStatus.pending] :=
  (getNextSegment_first_pending_no_mutation
    [Segment.make 0 99 SegmentStatus.downloading,
     Segment.make 100 199 SegmentStatus.pending]).1

/-- C1 (code bug).  Because `_get_next_segment` does not change the claimed
segment's status (the `DOWNLOADING` write only happens later, in
`_download_segment`, outside the table lock), a second worker's claim scan
executed between the two steps returns the very same segment: both workers
are then assigned the same `Segment` instance and both mark it
`DOWNLOADING`, writing the same part file concurrently. -/
theorem duplicate_claim_before_status_write (segs : List Segment) (i : Nat)
    (h : (getNextSegment segs).1 = some i) :
    (getNextSegment ((getNextSegment segs).2)).1 = some i ∧
    setSegmentStatus ((getNextSegment segs).2) i SegmentStatus.downloading
      = setSegmentStatus segs i SegmentStatus.downloading ∧
    ∃ hi : i < segs.length, segs[i].status = SegmentStatus.pending := by
  obtain ⟨hi, hp, -⟩ := getNextSegmentIdx_some segs i h
  exact ⟨h, rfl, hi, hp⟩

/-- Witness for C1: on the table `[Segment(0, 2097151)]` both workers'
claim scans return segment 0 while it is still `PENDING`. -/
theorem duplicate_claim_before_status_write_witness :
    (getNextSegment
        ((getNextSegment [Segment.make 0 2097151 SegmentStatus.pending]).2)).1 = some 0 :=
  (duplicate_claim_before_status_write
    [Segment.make 0 2097151 SegmentStatus.pending] 0 (by decide)).1

/-- C3, counterexample.  Splitting the 2 MiB `DOWNLOADING` segment
`[0, 2097151]` creates the tail segment with the constructor's default
status `PENDING` and appends it to the table, where the very next
`_get_next_segment` scan observes and returns it (index 1). -/
theorem split_new_segment_pending_counterexample :
    ((splitLargestSegment [Segment.make 0 2097151 SegmentStatus.downloading]).2.map
        Segment.status) = some SegmentStatus.pending ∧
    (getNextSegment
        (splitLargestSegment [Segment.make 0 2097151 SegmentStatus.downloading]).1).1
      = some 1 := by
  decide

/-- C3, amended.  The tail segment created by `_split_largest_segment` is
given status `PENDING` (the `Segment.__init__` default) and is appended to
the segment table as well as returned to the calling worker; until that
worker marks it `DOWNLOADING` in `_download_segment`, it is observable as a
`PENDING` segment by any other worker's `_get_next_segment` scan. -/
theorem split_new_segment_created_pending (segs segs' : List Segment) (s : Segment)
    (h : splitLargestSegment segs = (segs', some s)) :
    s.status = SegmentStatus.pending ∧
    segs'.length = segs.length + 1 ∧
    segs'[segs.length]? = some s ∧
    (getNextSegment segs').1 ≠ none := by
  rcases splitLargestSegment_cases segs with hc | ⟨i, l, hget, hdl, ht, hc⟩
  · rw [hc] at h
    simp at h
  · rw [hc] at h
    injection h with h1 h2
    injection h2 with h2
    subst h2
    subst h1
    refine ⟨rfl, by simp, ?_, ?_⟩
    · rw [List.getElem?_append_right (by simp)]
      simp
    · intro hnone
      have hnone' : getNextSegmentIdx
          (segs.set i { l with «end» := l.start + Int.fdiv l.size 2,
                               size := l.start + Int.fdiv l.size 2 - l.start + 1 }
            ++ [Segment.make (l.start + Int.fdiv l.size 2 + 1) l.«end» SegmentStatus.pending])
          = none := hnone
      rw [getNextSegmentIdx_eq_none_iff] at hnone'
      exact hnone'
        (Segment.make (l.start + Int.fdiv l.size 2 + 1) l.«end» SegmentStatus.pending)
        (List.mem_append_right _ (List.mem_singleton_self _)) rfl

/-- Witness for the amended C3 theorem at the concrete 2 MiB table. -/
theorem split_new_segment_created_pending_witness :
    (Segment.make 1048577 2097151 SegmentStatus.pending).status
        = SegmentStatus.pending ∧
    (getNextSegment
        (splitLargestSegment [Segment.make 0 2097151 SegmentStatus.downloading]).1).1
      ≠ none := by
  have h := split_new_segment_created_pending
    [Segment.make 0 2097151 SegmentStatus.downloading]
    (splitLargestSegment [Segment.make 0 2097151 SegmentStatus.downloading]).1
    (Segment.make 1048577 2097151 SegmentStatus.pending) (by decide)
  exact ⟨h.1, h.2.2.2⟩

/-- C9.  `_split_largest_segment` only ever splits a `DOWNLOADING` segment
whose `size` strictly exceeds `1024 * 1024`; and when no `DOWNLOADING`
segment exceeds that threshold it returns `None` and the table — every
segment's `start`, `end`, `size` and `status` — is unchanged. -/
theorem split_min_granularity (segs : List Segment) :
    (∀ segs' s, splitLargestSegment segs = (segs', some s) →
      ∃ (i : Nat) (l : Segment), segs[i]? = some l ∧
        l.status = SegmentStatus.downloading ∧ splitThreshold < l.size) ∧
    ((∀ s ∈ segs, s.status = SegmentStatus.downloading → s.size ≤ splitThreshold) →
      splitLargestSegment segs = (segs, none)) := by
  constructor
  · intro segs' s h
    rcases splitLargestSegment_cases segs with hc | ⟨i, l, hget, hdl, ht, hc⟩
    · rw [hc] at h
      simp at h
    · exact ⟨i, l, hget, hdl, ht⟩
  · intro hsmall
    rcases splitLargestSegment_cases segs with hc | ⟨i, l, hget, hdl, ht, hc⟩
    · exact hc
    · have hmem : l ∈ segs := by
        rw [List.getElem?_eq_some_iff] at hget
        obtain ⟨hi, hil⟩ := hget
        exact hil ▸ List.getElem_mem hi
      exact absurd ht (not_lt.mpr (hsmall l hmem hdl))

/-- Witness for C9: on a table whose only `DOWNLOADING` segment has `size`
exactly `1024 * 1024`, the split returns `None` and changes nothing. -/
theorem split_min_granularity_witness :
    splitLargestSegment [Segment.make 0 1048575 SegmentStatus.downloading]
      = ([Segment.make 0 1048575 SegmentStatus.downloading], none) :=
  (split_min_granularity [Segment.make 0 1048575 SegmentStatus.downloading]).2
    (by decide)

/-! ## Claims C7 and C10 -/

theorem cleanupPartFiles_apply (segs : List Segment) (parts : Int → Option (List Nat))
    (p : Int) :
    cleanupPartFiles segs parts p =
      if ∃ s ∈ segs, s.status = SegmentStatus.completed ∧ s.start = p then none
      else parts p := by
  induction segs generalizing parts with
  | nil => simp [cleanupPartFiles]
  | cons s rest ih =>
      show cleanupPartFiles rest
          (if s.status = SegmentStatus.completed then
            (fun q => if q = s.start then none else parts q) else parts) p = _
      rw [ih]
      by_cases hs : s.status = SegmentStatus.completed
      · by_cases hrest : ∃ t ∈ rest, t.status = SegmentStatus.completed ∧ t.start = p
        · rw [if_pos hrest, if_pos ?_]
          obtain ⟨t, ht1, ht2, ht3⟩ := hrest
          exact ⟨t, List.mem_cons_of_mem s ht1, ht2, ht3⟩
        · rw [if_neg hrest, if_pos hs]
          by_cases hp : p = s.start
          · rw [if_pos hp, if_pos ⟨s, List.mem_cons_self s rest, hs, hp.symm⟩]
          · rw [if_neg hp, if_neg ?_]
            intro ⟨t, ht1, ht2, ht3⟩
            rcases List.mem_cons.mp ht1 with rfl | ht1'
            · exact hp (ht3.symm)
            · exact hrest ⟨t, ht1', ht2, ht3⟩
      · by_cases hrest : ∃ t ∈ rest, t.status = SegmentStatus.completed ∧ t.start = p
        · rw [if_pos hrest, if_pos ?_]
          obtain ⟨t, ht1, ht2, ht3⟩ := hrest
          exact ⟨t, List.mem_cons_of_mem s ht1, ht2, ht3⟩
        · rw [if_neg hrest, if_neg hs, if_neg ?_]
          intro ⟨t, ht1, ht2, ht3⟩
          rcases List.mem_cons.mp ht1 with rfl | ht1'
          · exact hs ht2
          · exact hrest ⟨t, ht1', ht2, ht3⟩

/-- C7.  When the shutdown event is set before the workers drained
(observed at the line-105 check after the join), `download()` deletes every
part file belonging to a `COMPLETED` segment, leaves every other part file
alone, skips assembly (no final output file is produced), and returns
`False`. -/
theorem shutdown_cleanup_semantics (fileSize : Int) (numThreads : Nat)
    (parts0 : Int → Option (List Nat))
    (workerPhase : List Segment → List Segment × (Int → Option (List Nat)) × Bool)
    (segs : List Segment) (parts1 : Int → Option (List Nat))
    (hw : workerPhase (createInitialSegments fileSize numThreads) = (segs, parts1, true)) :
    (download false fileSize numThreads parts0 workerPhase).success = false ∧
    (download false fileSize numThreads parts0 workerPhase).finalFile = none ∧
    (∀ s ∈ segs, s.status = SegmentStatus.completed →
      (download false fileSize numThreads parts0 workerPhase).parts s.start = none) ∧
    (∀ p : Int, (∀ s ∈ segs, s.status = SegmentStatus.completed → s.start ≠ p) →
      (download false fileSize numThreads parts0 workerPhase).parts p = parts1 p) := by
  have hd : download false fileSize numThreads parts0 workerPhase =
      { success := false, headRequests := 1, threadsStarted := numThreads,
        segments := segs, finalFile := none,
        parts := cleanupPartFiles segs parts1 } := by
    simp [download, hw, downloadAfterJoin]
  rw [hd]
  refine ⟨rfl, rfl, ?_, ?_⟩
  · intro s hs hcomp
    show cleanupPartFiles segs parts1 s.start = none
    rw [cleanupPartFiles_apply]
    rw [if_pos ⟨s, hs, hcomp, rfl⟩]
  · intro p hnone
    show cleanupPartFiles segs parts1 p = parts1 p
    rw [cleanupPartFiles_apply]
    rw [if_neg ?_]
    intro ⟨t, ht1, ht2, ht3⟩
    exact hnone t ht1 ht2 ht3

/-- Witness for C7 at a concrete run: one completed segment whose part file
is deleted, returning `False` with no final file. -/
theorem shutdown_cleanup_semantics_witness :
    (download false 4 1 (fun _ => none)
        (fun _ => ([Segment.make 0 3 SegmentStatus.completed],
                   fun p => if p = 0 then some [7, 8, 9, 10] else none, true))).success
        = false ∧
    (download false 4 1 (fun _ => none)
        (fun _ => ([Segment.make 0 3 SegmentStatus.completed],
                   fun p => if p = 0 then some [7, 8, 9, 10] else none, true))).parts 0
        = none := by
  have h := shutdown_cleanup_semantics 4 1 (fun _ => none)
    (fun _ => ([Segment.make 0 3 SegmentStatus.completed],
               fun p => if p = 0 then some [7, 8, 9, 10] else none, true))
    [Segment.make 0 3 SegmentStatus.completed]
    (fun p => if p = 0 then some [7, 8, 9, 10] else none) rfl
  refine ⟨h.1, ?_⟩
  have h3 := h.2.2.1 (Segment.make 0 3 SegmentStatus.completed)
    (List.mem_singleton_self _) rfl
  simpa using h3

/-- C10.  If the global shutdown event is already set when `download()` is
entered (line 79), it returns `False` immediately: no HTTP HEAD size probe
is issued, no segments are created, no worker thread is started, no final
file is produced and the filesystem is left exactly as it was. -/
theorem download_shutdown_at_entry (fileSize : Int) (numThreads : Nat)
    (parts0 : Int → Option (List Nat))
    (workerPhase : List Segment → List Segment × (Int → Option (List Nat)) × Bool) :
    download true fileSize numThreads parts0 workerPhase =
      { success := false, headRequests := 0, threadsStarted := 0,
        segments := [], finalFile := none, parts := parts0 } :=
  rfl

/-! ## Claims C6 and C8 -/

theorem assembleFile_foldl (parts : Int → Option (List Nat)) (l : List Segment)
    (init : List Nat) :
    l.foldl (fun out s => match parts s.start with
      | some data => out ++ data
      | none => out) init
      = init ++ (l.map (fun s => (parts s.start).getD [])).flatten := by
  induction l generalizing init with
  | nil => simp
  | cons s rest ih =>
      rw [List.foldl_cons, ih]
      cases hp : parts s.start with
      | none => simp [hp]
      | some d => simp [hp]

theorem assembleFile_eq_flatten (segs : List Segment) (parts : Int → Option (List Nat)) :
    assembleFile segs parts
      = ((sortByStart segs).map (fun s => (parts s.start).getD [])).flatten := by
  show (sortByStart segs).foldl _ [] = _
  rw [assembleFile_foldl]
  simp

theorem sortByStart_eq_of_perm (segs segs' : List Segment)
    (hperm : segs.Perm segs')
    (hnodup : segs.Pairwise (fun a b => a.start ≠ b.start)) :
    sortByStart segs = sortByStart segs' := by
  have hsym : ∀ {x y : Segment}, x.start ≠ y.start → y.start ≠ x.start :=
    fun h => h.symm
  have p1 : (sortByStart segs).Perm segs := List.perm_insertionSort startLE segs
  have p2 : (sortByStart segs').Perm segs' := List.perm_insertionSort startLE segs'
  have p : (sortByStart segs).Perm (sortByStart segs') :=
    p1.trans (hperm.trans p2.symm)
  have hn1 : (sortByStart segs).Pairwise (fun a b => a.start ≠ b.start) :=
    (p1.pairwise_iff hsym).mpr hnodup
  have hn2 : (sortByStart segs').Pairwise (fun a b => a.start ≠ b.start) :=
    (p2.pairwise_iff hsym).mpr ((hperm.pairwise_iff hsym).mp hnodup)
  have s1 : List.Sorted startLE (sortByStart segs) :=
    List.sorted_insertionSort startLE segs
  have s2 : List.Sorted startLE (sortByStart segs') :=
    List.sorted_insertionSort startLE segs'
  have strict1 : List.Sorted startLT (sortByStart segs) :=
    (s1.and hn1).imp fun h => lt_of_le_of_ne h.1 h.2
  have strict2 : List.Sorted startLT (sortByStart segs') :=
    (s2.and hn2).imp fun h => lt_of_le_of_ne h.1 h.2
  exact List.eq_of_perm_of_sorted p strict1 strict2

/-- C8.  The assembled output is a pure function of the segments' `start`
offsets: it equals the concatenation, in ascending `start` order, of each
segment's part-file data, and it is invariant under any reordering of the
segment table (hence independent of worker completion order), provided the
`start` offsets are pairwise distinct. -/
theorem assembly_order_independent (segs segs' : List Segment)
    (parts : Int → Option (List Nat))
    (hperm : segs.Perm segs')
    (hnodup : segs.Pairwise (fun a b => a.start ≠ b.start)) :
    assembleFile segs parts = assembleFile segs' parts ∧
    List.Sorted startLE (sortByStart segs) ∧
    (sortByStart segs).Perm segs ∧
    assembleFile segs parts
      = ((sortByStart segs).map (fun s => (parts s.start).getD [])).flatten := by
  refine ⟨?_, List.sorted_insertionSort startLE segs,
    List.perm_insertionSort startLE segs, assembleFile_eq_flatten segs parts⟩
  show (sortByStart segs).foldl _ [] = (sortByStart segs').foldl _ []
  rw [sortByStart_eq_of_perm segs segs' hperm hnodup]

/-- Witness for C8: two completion orders of the same two segments yield
the same assembled bytes. -/
theorem assembly_order_independent_witness :
    assembleFile
        [Segment.make 4 7 SegmentStatus.completed, Segment.make 0 3 SegmentStatus.completed]
        (fun p => if p = 0 then some [1, 2, 3, 4] else if p = 4 then some [5, 6] else none)
      = assembleFile
        [Segment.make 0 3 SegmentStatus.completed, Segment.make 4 7 SegmentStatus.completed]
        (fun p => if p = 0 then some [1, 2, 3, 4] else if p = 4 then some [5, 6] else none) :=
  (assembly_order_independent
    [Segment.make 4 7 SegmentStatus.completed, Segment.make 0 3 SegmentStatus.completed]
    [Segment.make 0 3 SegmentStatus.completed, Segment.make 4 7 SegmentStatus.completed]
    (fun p => if p = 0 then some [1, 2, 3, 4] else if p = 4 then some [5, 6] else none)
    (by decide) (by decide)).1

/-- C6, counterexample.  `_assemble_file` never consults segment status: a
`FAILED` segment whose part file exists (because the transport error struck
after some chunks were already written) has its partial bytes copied into
the final output.  Here the failed segment `[4, 7]` wrote the single byte
`99` before failing, and `99` appears in the assembled output. -/
theorem failed_partial_part_reaches_output :
    ([Segment.make 0 3 SegmentStatus.completed,
      Segment.make 4 7 SegmentStatus.failed][1]?).map Segment.status
        = some SegmentStatus.failed ∧
    assembleFile
        [Segment.make 0 3 SegmentStatus.completed, Segment.make 4 7 SegmentStatus.failed]
        (fun p => if p = 0 then some [10, 11, 12, 13] else if p = 4 then some [99] else none)
      = [10, 11, 12, 13, 99] := by
  decide

/-- C6, amended.  Provided every `FAILED` segment's part file is absent
(as happens when the transport error struck before any byte was written),
no failed segment contributes a byte to the output: every output byte comes
from a non-`FAILED` segment's part data, the failed segments' ranges are
simply absent, and `download()` still reports success after assembly. -/
theorem assembly_missing_failed_parts (segs : List Segment)
    (parts : Int → Option (List Nat))
    (hmiss : ∀ s ∈ segs, s.status = SegmentStatus.failed → parts s.start = none) :
    (∀ b ∈ assembleFile segs parts,
      ∃ s ∈ segs, s.status ≠ SegmentStatus.failed ∧ b ∈ (parts s.start).getD []) ∧
    (downloadAfterJoin false segs parts).success = true ∧
    (downloadAfterJoin false segs parts).finalFile = some (assembleFile segs parts) := by
  refine ⟨?_, rfl, rfl⟩
  intro b hb
  rw [assembleFile_eq_flatten, List.mem_flatten] at hb
  obtain ⟨lst, hlst, hbl⟩ := hb
  rw [List.mem_map] at hlst
  obtain ⟨s, hs, rfl⟩ := hlst
  have hsmem : s ∈ segs := (List.perm_insertionSort startLE segs).mem_iff.mp hs
  by_cases hf : s.status = SegmentStatus.failed
  · rw [hmiss s hsmem hf] at hbl
    simp at hbl
  · exact ⟨s, hsmem, hf, hbl⟩

/-- Witness for the amended C6 theorem: the failed segment's part file is
missing, assembly succeeds and reports `True`. -/
theorem assembly_missing_failed_parts_witness :
    (∀ b ∈ assembleFile
        [Segment.make 0 3 SegmentStatus.completed, Segment.make 4 7 SegmentStatus.failed]
        (fun p => if p = 0 then some [10, 11, 12, 13] else none),
      ∃ s ∈ [Segment.make 0 3 SegmentStatus.completed,
             Segment.make 4 7 SegmentStatus.failed],
        s.status ≠ SegmentStatus.failed ∧
          b ∈ ((fun p : Int => if p = 0 then some [10, 11, 12, 13] else none) s.start).getD []) ∧
    (downloadAfterJoin false
        [Segment.make 0 3 SegmentStatus.completed, Segment.make 4 7 SegmentStatus.failed]
        (fun p => if p = 0 then some [10, 11, 12, 13] else none)).success = true := by
  have h := assembly_missing_failed_parts
    [Segment.make 0 3 SegmentStatus.completed, Segment.make 4 7 SegmentStatus.failed]
    (fun p => if p = 0 then some [10, 11, 12, 13] else none)
    (by decide)
  exact ⟨h.1, h.2.1⟩

/-! ## Claim C4: initial partitioning -/

theorem covers_make (a e : Int) (st : SegmentStatus) (k : Int) :
    covers (Segment.make a e st) k ↔ a ≤ k ∧ k ≤ e :=
  Iff.rfl

theorem nonFailed_make (a e : Int) (st : SegmentStatus) :
    nonFailed (Segment.make a e st) ↔ st ≠ SegmentStatus.failed :=
  Iff.rfl

theorem size_make (a e : Int) (st : SegmentStatus) :
    (Segment.make a e st).size = e - a + 1 :=
  rfl

theorem start_make (a e : Int) (st : SegmentStatus) :
    (Segment.make a e st).start = a :=
  rfl

theorem end_make (a e : Int) (st : SegmentStatus) :
    (Segment.make a e st).«end» = e :=
  rfl

theorem createInitialSegments_length (fileSize : Int) (numThreads : Nat) :
    (createInitialSegments fileSize numThreads).length = numThreads := by
  unfold createInitialSegments
  simp only [List.length_map, List.length_range]

theorem createInitialSegments_getElem (fileSize : Int) (numThreads : Nat) (i : Nat)
    (hi : i < (createInitialSegments fileSize numThreads).length) :
    (createInitialSegments fileSize numThreads)[i] =
      Segment.make ((i : Int) * Int.fdiv fileSize (numThreads : Int))
        (if i = numThreads - 1 then fileSize - 1
         else (i : Int) * Int.fdiv fileSize (numThreads : Int)
                + Int.fdiv fileSize (numThreads : Int) - 1)
        SegmentStatus.pending := by
  unfold createInitialSegments
  simp only [List.getElem_map, List.getElem_range]

theorem createInitialSegments_getElem_mid (fileSize : Int) (numThreads : Nat) (i : Nat)
    (hi : i < (createInitialSegments fileSize numThreads).length)
    (hne : i ≠ numThreads - 1) :
    (createInitialSegments fileSize numThreads)[i] =
      Segment.make ((i : Int) * Int.fdiv fileSize (numThreads : Int))
        ((i : Int) * Int.fdiv fileSize (numThreads : Int)
          + Int.fdiv fileSize (numThreads : Int) - 1)
        SegmentStatus.pending := by
  rw [createInitialSegments_getElem, if_neg hne]

theorem createInitialSegments_getElem_last (fileSize : Int) (numThreads : Nat)
    (hl : numThreads - 1 < (createInitialSegments fileSize numThreads).length) :
    (createInitialSegments fileSize numThreads)[numThreads - 1] =
      Segment.make (((numThreads - 1 : Nat) : Int) * Int.fdiv fileSize (numThreads : Int))
        (fileSize - 1) SegmentStatus.pending := by
  rw [createInitialSegments_getElem, if_pos rfl]

theorem createInitialSegments_sizeInv (fileSize : Int) (numThreads : Nat) :
    sizeInv (createInitialSegments fileSize numThreads) := by
  intro s hs
  unfold createInitialSegments at hs
  simp only [List.mem_map, List.mem_range] at hs
  obtain ⟨i, _, rfl⟩ := hs
  rfl

theorem fdiv_facts (fileSize : Int) (numThreads : Nat)
    (hf : 1 ≤ fileSize) (hn : 1 ≤ numThreads) :
    0 ≤ Int.fdiv fileSize (numThreads : Int) ∧
    (numThreads : Int) * Int.fdiv fileSize (numThreads : Int) ≤ fileSize ∧
    fileSize < (numThreads : Int) * Int.fdiv fileSize (numThreads : Int) + numThreads := by
  have hnpos : (0 : Int) < (numThreads : Int) := by exact_mod_cast hn
  have hq : Int.fdiv fileSize (numThreads : Int) = fileSize / (numThreads : Int) :=
    Int.fdiv_eq_ediv _ (le_of_lt hnpos)
  have h1 := Int.ediv_add_emod fileSize (numThreads : Int)
  have h2 := Int.emod_nonneg fileSize (ne_of_gt hnpos)
  have h3 := Int.emod_lt_of_pos fileSize hnpos
  rw [hq]
  refine ⟨Int.ediv_nonneg (by omega) (le_of_lt hnpos), ?_, ?_⟩
  · linarith
  · linarith

/-- C4.  For every `file_size ≥ 1` and `num_threads ≥ 1`,
`_create_initial_segments` produces exactly `num_threads` segments whose
ranges exactly partition `[0, file_size - 1]` (gap-free and
non-overlapping), each non-final segment has size
`file_size // num_threads`, consecutive segments are adjacent, the first
starts at `0`, and the final segment's `end` is `file_size - 1` (the
remainder is folded entirely into it). -/
theorem createInitialSegments_partition (fileSize : Int) (numThreads : Nat)
    (hf : 1 ≤ fileSize) (hn : 1 ≤ numThreads) :
    (createInitialSegments fileSize numThreads).length = numThreads ∧
    exactPartition (createInitialSegments fileSize numThreads) fileSize ∧
    (∀ i, ∀ hi : i < (createInitialSegments fileSize numThreads).length,
      i + 1 < numThreads →
        (createInitialSegments fileSize numThreads)[i].size
          = Int.fdiv fileSize (numThreads : Int)) ∧
    (∀ i, ∀ hi : i < (createInitialSegments fileSize numThreads).length,
      ∀ hi1 : i + 1 < (createInitialSegments fileSize numThreads).length,
        (createInitialSegments fileSize numThreads)[i + 1].start
          = (createInitialSegments fileSize numThreads)[i].«end» + 1) ∧
    (∀ h0 : 0 < (createInitialSegments fileSize numThreads).length,
        (createInitialSegments fileSize numThreads)[0].start = 0) ∧
    (∀ hl : numThreads - 1 < (createInitialSegments fileSize numThreads).length,
        (createInitialSegments fileSize numThreads)[numThreads - 1].«end»
          = fileSize - 1) := by
  obtain ⟨hq0, hqle, hqlt⟩ := fdiv_facts fileSize numThreads hf hn
  refine ⟨createInitialSegments_length fileSize numThreads, ⟨?_, ?_, ?_⟩, ?_, ?_, ?_, ?_⟩
  · -- coverage
    intro k hk0 hkfs
    have hlast : numThreads - 1 < (createInitialSegments fileSize numThreads).length := by
      rw [createInitialSegments_length]; omega
    by_cases hqz : Int.fdiv fileSize (numThreads : Int) = 0
    · refine ⟨numThreads - 1, hlast, ?_, ?_⟩
      · rw [createInitialSegments_getElem_last, nonFailed_make]
        decide
      · rw [createInitialSegments_getElem_last, covers_make, hqz, mul_zero]
        omega
    · have hj0 : 0 ≤ k / Int.fdiv fileSize (numThreads : Int) :=
        Int.ediv_nonneg hk0 hq0
      have hjmod := Int.ediv_add_emod k (Int.fdiv fileSize (numThreads : Int))
      have hm0 : 0 ≤ k % Int.fdiv fileSize (numThreads : Int) :=
        Int.emod_nonneg k hqz
      have hmlt : k % Int.fdiv fileSize (numThreads : Int)
          < Int.fdiv fileSize (numThreads : Int) :=
        Int.emod_lt_of_pos k (by omega)
      have hcomm : (k / Int.fdiv fileSize (numThreads : Int))
            * Int.fdiv fileSize (numThreads : Int)
          = Int.fdiv fileSize (numThreads : Int)
            * (k / Int.fdiv fileSize (numThreads : Int)) :=
        mul_comm _ _
      by_cases hcap : ((numThreads : Int) - 1) ≤ k / Int.fdiv fileSize (numThreads : Int)
      · refine ⟨numThreads - 1, hlast, ?_, ?_⟩
        · rw [createInitialSegments_getElem_last, nonFailed_make]
          decide
        · rw [createInitialSegments_getElem_last, covers_make]
          have hcast : ((numThreads - 1 : Nat) : Int) = (numThreads : Int) - 1 := by
            omega
          rw [hcast]
          have hmul : ((numThreads : Int) - 1) * Int.fdiv fileSize (numThreads : Int)
              ≤ (k / Int.fdiv fileSize (numThreads : Int))
                  * Int.fdiv fileSize (numThreads : Int) :=
            mul_le_mul_of_nonneg_right hcap hq0
          constructor
          · linarith
          · omega
      · have hjlt : k / Int.fdiv fileSize (numThreads : Int) < (numThreads : Int) - 1 := by
          omega
        have hitn : (k / Int.fdiv fileSize (numThreads : Int)).toNat
            < (createInitialSegments fileSize numThreads).length := by
          rw [createInitialSegments_length]; omega
        refine ⟨(k / Int.fdiv fileSize (numThreads : Int)).toNat, hitn, ?_, ?_⟩
        · rw [createInitialSegments_getElem_mid _ _ _ hitn (by omega), nonFailed_make]
          decide
        · rw [createInitialSegments_getElem_mid _ _ _ hitn (by omega), covers_make]
          have hcast : (((k / Int.fdiv fileSize (numThreads : Int)).toNat : Nat) : Int)
              = k / Int.fdiv fileSize (numThreads : Int) := by
            omega
          rw [hcast]
          constructor
          · linarith
          · linarith
  · -- disjointness
    suffices haux : ∀ i j, ∀ hi : i < (createInitialSegments fileSize numThreads).length,
        ∀ hj : j < (createInitialSegments fileSize numThreads).length, i < j →
        ∀ k : Int, covers (createInitialSegments fileSize numThreads)[i] k →
          covers (createInitialSegments fileSize numThreads)[j] k → False by
      intro i j hi hj hne k _ _ hci hcj
      rcases Nat.lt_or_ge i j with h | h
      · exact haux i j hi hj h k hci hcj
      · exact haux j i hj hi (by omega) k hcj hci
    intro i j hi hj hij k hci hcj
    have hjn : j < numThreads := by
      rwa [createInitialSegments_length] at hj
    have hin : i ≠ numThreads - 1 := by omega
    rw [createInitialSegments_getElem_mid _ _ _ hi hin, covers_make] at hci
    rw [createInitialSegments_getElem, covers_make] at hcj
    have hmul : ((i : Int) + 1) * Int.fdiv fileSize (numThreads : Int)
        ≤ (j : Int) * Int.fdiv fileSize (numThreads : Int) := by
      have hcast : ((i : Int) + 1) ≤ (j : Int) := by exact_mod_cast Nat.succ_le_of_lt hij
      exact mul_le_mul_of_nonneg_right hcast hq0
    have hring : ((i : Int) + 1) * Int.fdiv fileSize (numThreads : Int)
        = (i : Int) * Int.fdiv fileSize (numThreads : Int)
            + Int.fdiv fileSize (numThreads : Int) := by
      ring
    linarith [hci.2, hcj.1]
  · -- in-range
    intro i hi _ k hc
    have hin' : i < numThreads := by
      rwa [createInitialSegments_length] at hi
    have h0 : 0 ≤ (i : Int) * Int.fdiv fileSize (numThreads : Int) :=
      mul_nonneg (Int.natCast_nonneg i) hq0
    by_cases hilast : i = numThreads - 1
    · subst hilast
      rw [createInitialSegments_getElem_last, covers_make] at hc
      have h0' : 0 ≤ ((numThreads - 1 : Nat) : Int)
          * Int.fdiv fileSize (numThreads : Int) :=
        mul_nonneg (Int.natCast_nonneg _) hq0
      constructor
      · linarith [hc.1]
      · linarith [hc.2]
    · rw [createInitialSegments_getElem_mid _ _ _ hi hilast, covers_make] at hc
      have hle : ((i : Int) + 1) * Int.fdiv fileSize (numThreads : Int)
          ≤ (numThreads : Int) * Int.fdiv fileSize (numThreads : Int) := by
        have hcast : ((i : Int) + 1) ≤ (numThreads : Int) := by
          exact_mod_cast (by omega : i + 1 ≤ numThreads)
        exact mul_le_mul_of_nonneg_right hcast hq0
      have hring : ((i : Int) + 1) * Int.fdiv fileSize (numThreads : Int)
          = (i : Int) * Int.fdiv fileSize (numThreads : Int)
              + Int.fdiv fileSize (numThreads : Int) := by
        ring
      constructor
      · linarith [hc.1]
      · linarith [hc.2]
  · -- equal sizes for non-final segments
    intro i hi hi1
    have hin : i ≠ numThreads - 1 := by omega
    rw [createInitialSegments_getElem_mid _ _ _ hi hin, size_make]
    ring
  · -- gap-free adjacency
    intro i hi hi1
    have hlen : i + 1 < numThreads := by
      rwa [createInitialSegments_length] at hi1
    have hin : i ≠ numThreads - 1 := by omega
    rw [createInitialSegments_getElem, start_make,
      createInitialSegments_getElem_mid _ _ _ hi hin, end_make]
    push_cast
    ring
  · -- first segment starts at 0
    intro h0
    rw [createInitialSegments_getElem, start_make]
    simp
  · -- last segment ends at fileSize - 1
    intro hl
    rw [createInitialSegments_getElem_last, end_make]

/-- Witness for C4 at `file_size = 10`, `num_threads = 4`. -/
theorem createInitialSegments_partition_witness :
    (createInitialSegments 10 4).length = 4 ∧
    (createInitialSegments 10 4)[3]?.map Segment.«end» = some 9 := by
  have h := createInitialSegments_partition 10 4 (by decide) (by decide)
  refine ⟨h.1, ?_⟩
  decide
/-! ## Claim C5: splits preserve the partition -/

theorem getElem_set_append (segs : List Segment) (i : Nat) (x y : Segment)
    (j : Nat) (hj : j < (segs.set i x ++ [y]).length) :
    (j = segs.length ∧ (segs.set i x ++ [y])[j] = y) ∨
    (∃ hj' : j < segs.length, (segs.set i x ++ [y])[j] = if i = j then x else segs[j]) := by
  have hlen : (segs.set i x ++ [y]).length = segs.length + 1 := by simp
  by_cases hje : j = segs.length
  · left
    refine ⟨hje, ?_⟩
    rw [List.getElem_append_right (by simp [hje])]
    simp [hje]
  · have hj' : j < segs.length := by omega
    right
    refine ⟨hj', ?_⟩
    rw [List.getElem_append_left (by simpa using hj')]
    rw [List.getElem_set]

theorem splitLargestSegment_preserves (fileSize : Int) (segs segs' : List Segment)
    (r : Option Segment) (hc : splitLargestSegment segs = (segs', r))
    (hpart : exactPartition segs fileSize) (hsize : sizeInv segs) :
    exactPartition segs' fileSize ∧ sizeInv segs' := by
  rcases splitLargestSegment_cases segs with hc0 | ⟨i, l, hget, hdl, ht, hc0⟩
  · rw [hc0] at hc
    injection hc with hc1 _
    exact hc1 ▸ ⟨hpart, hsize⟩
  · rw [hc0] at hc
    injection hc with hc1 _
    obtain ⟨hilen, hil⟩ := List.getElem?_eq_some_iff.mp hget
    have hlmem : l ∈ segs := hil ▸ List.getElem_mem hilen
    have hsz : l.size = l.«end» - l.start + 1 := hsize l hlmem
    have ht' : (1048576 : Int) < l.size := ht
    have hfd : Int.fdiv l.size 2 = l.size / 2 := Int.fdiv_eq_ediv _ (by norm_num)
    have hmid1 : l.start ≤ l.start + Int.fdiv l.size 2 := by
      rw [hfd]; omega
    have hmid2 : l.start + Int.fdiv l.size 2 < l.«end» := by
      rw [hfd]; omega
    subst hc1
    set shrunk : Segment :=
      { l with «end» := l.start + Int.fdiv l.size 2,
               size := l.start + Int.fdiv l.size 2 - l.start + 1 } with hshr
    set nw : Segment :=
      Segment.make (l.start + Int.fdiv l.size 2 + 1) l.«end» SegmentStatus.pending with hnw
    -- definitional descriptions of the two pieces
    have hcshr : ∀ k' : Int, covers shrunk k' ↔
        (l.start ≤ k' ∧ k' ≤ l.start + Int.fdiv l.size 2) := fun _ => Iff.rfl
    have hcnw : ∀ k' : Int, covers nw k' ↔
        (l.start + Int.fdiv l.size 2 + 1 ≤ k' ∧ k' ≤ l.«end») := fun _ => Iff.rfl
    have hcovl : ∀ k' : Int, covers l k' ↔ (l.start ≤ k' ∧ k' ≤ l.«end») := fun _ => Iff.rfl
    have hnfl : nonFailed l := by
      rw [nonFailed, hdl]
      exact fun h => SegmentStatus.noConfusion h
    have hnfshr : nonFailed shrunk := hnfl
    have hnfnw : nonFailed nw :=
      fun h => SegmentStatus.noConfusion h
    have hcovl_of_shr : ∀ k', covers shrunk k' → covers l k' := by
      intro k' hck
      rw [hcshr] at hck
      rw [hcovl]
      omega
    have hcovl_of_nw : ∀ k', covers nw k' → covers l k' := by
      intro k' hck
      rw [hcnw] at hck
      rw [hcovl]
      omega
    have hiA : i < (segs.set i shrunk ++ [nw]).length := by
      simp
      omega
    have hlenA : segs.length < (segs.set i shrunk ++ [nw]).length := by
      simp
    have hAi : (segs.set i shrunk ++ [nw])[i] = shrunk := by
      rcases getElem_set_append segs i shrunk nw i hiA with ⟨he, _⟩ | ⟨hj', heq⟩
      · omega
      · rw [heq, if_pos rfl]
    have hAlast : (segs.set i shrunk ++ [nw])[segs.length] = nw := by
      rcases getElem_set_append segs i shrunk nw segs.length hlenA with ⟨_, heq⟩ | ⟨hj', _⟩
      · exact heq
      · omega
    have hnfold : nonFailed segs[i] := by
      rw [hil]
      exact hnfl
    constructor
    · refine ⟨?_, ?_, ?_⟩
      · -- coverage
        intro k hk0 hkfs
        obtain ⟨i0, hi0, hnf0, hcov0⟩ := hpart.1 k hk0 hkfs
        by_cases hii : i0 = i
        · subst hii
          rw [hil] at hcov0
          rw [hcovl] at hcov0
          by_cases hkm : k ≤ l.start + Int.fdiv l.size 2
          · refine ⟨i0, hiA, ?_, ?_⟩
            · rw [hAi]
              exact hnfshr
            · rw [hAi, hcshr]
              exact ⟨hcov0.1, hkm⟩
          · refine ⟨segs.length, hlenA, ?_, ?_⟩
            · rw [hAlast]
              exact hnfnw
            · rw [hAlast, hcnw]
              omega
        · have hi0A : i0 < (segs.set i shrunk ++ [nw]).length := by
            simp
            omega
          have hAi0 : (segs.set i shrunk ++ [nw])[i0] = segs[i0] := by
            rcases getElem_set_append segs i shrunk nw i0 hi0A with ⟨he, _⟩ | ⟨hj', heq⟩
            · omega
            · rw [heq, if_neg (fun he => hii he.symm)]
          refine ⟨i0, hi0A, ?_, ?_⟩
          · rw [hAi0]
            exact hnf0
          · rw [hAi0]
            exact hcov0
      · -- disjointness
        intro j1 j2 hj1 hj2 hne k hnf1 hnf2 hc1 hc2
        have hdescr : ∀ j, ∀ hjA : j < (segs.set i shrunk ++ [nw]).length,
            (j = segs.length ∧ (segs.set i shrunk ++ [nw])[j] = nw) ∨
            (j = i ∧ j < segs.length ∧ (segs.set i shrunk ++ [nw])[j] = shrunk) ∨
            (j ≠ segs.length ∧ j ≠ i ∧ ∃ hj' : j < segs.length,
              (segs.set i shrunk ++ [nw])[j] = segs[j]) := by
          intro j hjA
          rcases getElem_set_append segs i shrunk nw j hjA with ⟨he, heq⟩ | ⟨hj', heq⟩
          · exact Or.inl ⟨he, heq⟩
          · by_cases hji : i = j
            · exact Or.inr (Or.inl ⟨hji.symm, hj', by rw [heq, if_pos hji]⟩)
            · exact Or.inr (Or.inr ⟨by omega, fun hh => hji hh.symm, hj',
                by rw [heq, if_neg hji]⟩)
        rcases hdescr j1 hj1 with ⟨he1, heq1⟩ | ⟨he1, hl1, heq1⟩ | ⟨hne1, hni1, hl1, heq1⟩ <;>
          rcases hdescr j2 hj2 with ⟨he2, heq2⟩ | ⟨he2, hl2, heq2⟩ | ⟨hne2, hni2, hl2, heq2⟩
        · omega
        · -- j1 ↦ new piece, j2 ↦ shrunk piece : their ranges are disjoint
          rw [heq1, hcnw] at hc1
          rw [heq2, hcshr] at hc2
          omega
        · -- j1 ↦ new piece, j2 ↦ untouched old segment
          rw [heq1] at hc1
          rw [heq2] at hc2 hnf2
          exact hpart.2.1 i j2 hilen hl2 (by omega) k hnfold hnf2
            (hil ▸ hcovl_of_nw k hc1) hc2
        · -- j1 ↦ shrunk piece, j2 ↦ new piece
          rw [heq1, hcshr] at hc1
          rw [heq2, hcnw] at hc2
          omega
        · omega
        · -- j1 ↦ shrunk piece, j2 ↦ untouched old segment
          rw [heq1] at hc1
          rw [heq2] at hc2 hnf2
          exact hpart.2.1 i j2 hilen hl2 (by omega) k hnfold hnf2
            (hil ▸ hcovl_of_shr k hc1) hc2
        · -- j1 ↦ untouched old segment, j2 ↦ new piece
          rw [heq1] at hc1 hnf1
          rw [heq2] at hc2
          exact hpart.2.1 j1 i hl1 hilen (by omega) k hnf1 hnfold
            hc1 (hil ▸ hcovl_of_nw k hc2)
        · -- j1 ↦ untouched old segment, j2 ↦ shrunk piece
          rw [heq1] at hc1 hnf1
          rw [heq2] at hc2
          exact hpart.2.1 j1 i hl1 hilen (by omega) k hnf1 hnfold
            hc1 (hil ▸ hcovl_of_shr k hc2)
        · -- both segments untouched
          rw [heq1] at hc1 hnf1
          rw [heq2] at hc2 hnf2
          exact hpart.2.1 j1 j2 hl1 hl2 hne k hnf1 hnf2 hc1 hc2
      · -- in-range
        intro j hjA hnfj k hck
        rcases getElem_set_append segs i shrunk nw j hjA with ⟨he, heq⟩ | ⟨hj', heq⟩
        · rw [heq] at hck
          exact hpart.2.2 i hilen hnfold k (hil ▸ hcovl_of_nw k hck)
        · rw [heq] at hck hnfj
          by_cases hji : i = j
          · rw [if_pos hji] at hck
            exact hpart.2.2 i hilen hnfold k (hil ▸ hcovl_of_shr k hck)
          · rw [if_neg hji] at hck hnfj
            exact hpart.2.2 j hj' hnfj k hck
    · -- sizeInv is preserved
      intro s' hs'
      rcases List.mem_append.mp hs' with hmem | hmem
      · rcases List.mem_or_eq_of_mem_set hmem with hmem' | rfl
        · exact hsize s' hmem'
        · show l.start + Int.fdiv l.size 2 - l.start + 1
            = l.start + Int.fdiv l.size 2 - l.start + 1
          rfl
      · have hs'' : s' = nw := by simpa using hmem
        subst hs''
        rfl

theorem splitLargestSegment_positive_sizes (segs segs' : List Segment) (s : Segment)
    (hc : splitLargestSegment segs = (segs', some s)) (hsize : sizeInv segs) :
    0 < s.size ∧ ∀ j, ∀ hj : j < segs'.length, 0 < segs'[j].size ∨ segs'[j] ∈ segs := by
  rcases splitLargestSegment_cases segs with hc0 | ⟨i, l, hget, hdl, ht, hc0⟩
  · rw [hc0] at hc
    injection hc with _ hc2
    exact absurd hc2 (by simp)
  · rw [hc0] at hc
    injection hc with hc1 hc2
    injection hc2 with hc2
    subst hc1
    subst hc2
    obtain ⟨hilen, hil⟩ := List.getElem?_eq_some_iff.mp hget
    have hlmem : l ∈ segs := hil ▸ List.getElem_mem hilen
    have hsz : l.size = l.«end» - l.start + 1 := hsize l hlmem
    have ht' : (1048576 : Int) < l.size := ht
    have hfd : Int.fdiv l.size 2 = l.size / 2 := Int.fdiv_eq_ediv _ (by norm_num)
    have hnwpos : (0 : Int) <
        (Segment.make (l.start + Int.fdiv l.size 2 + 1) l.«end» SegmentStatus.pending).size := by
      show (0 : Int) < l.«end» - (l.start + Int.fdiv l.size 2 + 1) + 1
      rw [hfd]
      omega
    constructor
    · exact hnwpos
    · intro j hj
      rcases getElem_set_append segs i
          { l with «end» := l.start + Int.fdiv l.size 2,
                   size := l.start + Int.fdiv l.size 2 - l.start + 1 }
          (Segment.make (l.start + Int.fdiv l.size 2 + 1) l.«end» SegmentStatus.pending)
          j hj with ⟨he, heq⟩ | ⟨hjlt, heq⟩
      · left
        rw [heq]
        exact hnwpos
      · by_cases hji : i = j
        · left
          rw [heq, if_pos hji]
          show (0 : Int) < l.start + Int.fdiv l.size 2 - l.start + 1
          rw [hfd]
          omega
        · right
          rw [heq, if_neg hji]
          exact List.getElem_mem hjlt

/-- C5.  Starting from a table whose non-`FAILED` segments exactly
partition `[0, fileSize - 1]` and whose `size` fields are consistent, any
sequence of `_split_largest_segment` operations preserves both invariants —
no split ever creates a gap or an overlap — and whenever a split happens,
neither resulting segment (the shrunk original or the new tail) has
`size ≤ 0`: every segment of the post-split table either has positive size
or is an untouched segment of the pre-split table. -/
theorem split_preserves_partition (fileSize : Int) (segs : List Segment)
    (hpart : exactPartition segs fileSize) (hsize : sizeInv segs) (n : Nat) :
    exactPartition (iterateSplits n segs) fileSize ∧
    sizeInv (iterateSplits n segs) ∧
    (∀ segs' s, splitLargestSegment (iterateSplits n segs) = (segs', some s) →
      0 < s.size ∧ ∀ j, ∀ hj : j < segs'.length,
        0 < segs'[j].size ∨ segs'[j] ∈ iterateSplits n segs) := by
  induction n generalizing segs with
  | zero =>
      refine ⟨hpart, hsize, ?_⟩
      intro segs' s hc
      exact splitLargestSegment_positive_sizes segs segs' s hc hsize
  | succ n ih =>
      obtain ⟨hp', hs'⟩ := splitLargestSegment_preserves fileSize segs
        (splitLargestSegment segs).1 (splitLargestSegment segs).2 rfl hpart hsize
      exact ih (splitLargestSegment segs).1 hp' hs'

/-- Witness for C5: one split of a single 2 MiB downloading segment. -/
theorem split_preserves_partition_witness :
    exactPartition
        (iterateSplits 1 [Segment.make 0 2097151 SegmentStatus.downloading]) 2097152 ∧
    sizeInv (iterateSplits 1 [Segment.make 0 2097151 SegmentStatus.downloading]) := by
  have hpart : exactPartition [Segment.make 0 2097151 SegmentStatus.downloading] 2097152 := by
    refine ⟨?_, ?_, ?_⟩
    · intro k hk0 hkfs
      refine ⟨0, by decide, by decide, ?_⟩
      show (0 : Int) ≤ k ∧ k ≤ 2097151
      omega
    · intro i j hi hj hne k _ _ _ _
      simp at hi hj
      omega
    · intro i hi _ k hc
      simp at hi
      subst hi
      have hc' : (0 : Int) ≤ k ∧ k ≤ 2097151 := hc
      omega
  have hsz : sizeInv [Segment.make 0 2097151 SegmentStatus.downloading] := by
    intro s hs
    rw [List.mem_singleton] at hs
    subst hs
    rfl
  have h := split_preserves_partition 2097152
    [Segment.make 0 2097151 SegmentStatus.downloading] hpart hsz 1
  exact ⟨h.1, h.2.1⟩

end SegDL
